import Mathlib

/-!
Verification development for the Context Retrieval Pipeline of the
Medical_AI_Assistant repository (file `rag_system.py`).

The embedding models:
* the query-context LRU cache of `RAGSystem.get_relevant_context`
  (an `OrderedDict` used with `move_to_end` on hit and
  `popitem(last=False)` on overflow) as an association list whose order
  is recency order: the head is least recently used, the last element is
  most recently used;
* `RAGSystem.retrieve_relevant_chunks`, including the result-building
  loop over the index's answer, the local `cosine` rerank and the final
  stable descending sort (`list.sort` in Python is stable, also with
  `reverse=True`; it is modelled by `List.insertionSort` with the
  non-strict "score at least" relation, which is the stable descending
  sort by construction);
* `RAGSystem.format_context_for_llm`;
* `RAGSystem.process_pdf` (ingestion guard and batch bookkeeping); a
  Python function body that ends in a bare `return` yields `None`,
  modelled as `none : Option Nat`;
* the external embedding provider and vector index as oracles returning
  `Except String _`, mirroring the fact that any exception raised inside
  the `try` block of `retrieve_relevant_chunks` is caught by its
  `except` clause;
* the Chunker contract of the specification (the splitting itself is
  performed by the external `RecursiveCharacterTextSplitter` library and
  is not part of this repository's sources, so it is modelled from the
  specification's words, see `slidingChunks` and `chunk`).

Vectors of floats are modelled as lists of real numbers.
-/

/-- Maximum entry count of the query cache (`self._max_cache_size = 128`). -/
def maxCacheSize : Nat := 128

/-- Lookup in the cache, modelling `OrderedDict.get`: the value stored under
the first (unique) matching key, or `none`. -/
def cacheGet : List (String × String) → String → Option String
  | [], _ => none
  | e :: rest, q => if e.1 == q then some e.2 else cacheGet rest q

/-- Model of `OrderedDict.move_to_end`: move the (first) entry with the given
key to the end of the recency order; identity if the key is absent. -/
def moveToEnd : List (String × String) → String → List (String × String)
  | [], _ => []
  | e :: rest, q => if e.1 == q then rest ++ [e] else e :: moveToEnd rest q

/-- Per-item metadata as returned by the vector index; each field may be
missing from the metadata dictionary. -/
structure IndexMetadata where
  source : Option String
  chunkId : Option String

/-- Shape of one answer of `collection.query` (the inner `[0]` lists of the
ChromaDB result): parallel documents and metadata arrays, and an optional
distances array (`results.get('distances')` may be absent). -/
structure QueryResult where
  documents : List String
  metadatas : List IndexMetadata
  distances : Option (List ℝ)

/-- The `chunk_info` record built per result in `retrieve_relevant_chunks`;
`score` is attached later by the rerank step (before that, reading the score
falls back to `0.0` via `c.get("score", 0.0)`, hence the `0` here). -/
structure RetrievedChunk where
  text : String
  source : String
  chunkId : String
  distance : Option ℝ
  score : ℝ

/-- The result-building loop of `retrieve_relevant_chunks`:
for each returned document, take `source` and `chunk_id` from the metadata
with default `'Unknown'`, and the approximate distance from the distances
array when the index supplied one.  The Python code indexes the parallel
arrays directly (an out-of-range access would raise and be caught by the
surrounding `except`); the model totalises those accesses with defaults and
is used under the index contract that the arrays are aligned. -/
def buildChunks (qr : QueryResult) : List RetrievedChunk :=
  (List.range qr.documents.length).map (fun i =>
    ⟨qr.documents.getD i "",
     ((qr.metadatas.getD i ⟨none, none⟩).source).getD "Unknown",
     ((qr.metadatas.getD i ⟨none, none⟩).chunkId).getD "Unknown",
     qr.distances.bind (fun ds => ds.get? i),
     0⟩)

/-- The local helper `cosine` uses these norms: `sqrt(sum(x*x for x in a))`. -/
noncomputable def vecNorm (a : List ℝ) : ℝ :=
  Real.sqrt ((a.map (fun x => x * x)).sum)

/-- `dot = sum(x*y for x, y in zip(a, b))`; like Python's `zip`, `zipWith`
truncates to the shorter list. -/
def dotList (a b : List ℝ) : ℝ :=
  (List.zipWith (fun x y => x * y) a b).sum

/-- The local function `cosine` of `retrieve_relevant_chunks`: returns `0.0`
when either norm is zero, otherwise `dot / (na * nb)`. -/
noncomputable def cosine (a b : List ℝ) : ℝ :=
  if vecNorm a = 0 ∨ vecNorm b = 0 then 0 else dotList a b / (vecNorm a * vecNorm b)

/-- Descending-score order used by the rerank sort: `c` may come before `d`
when `d`'s score is at most `c`'s.  `list.sort(key=score, reverse=True)` is a
stable sort, and a stable sort with respect to this non-strict relation is
exactly `List.insertionSort scoreGE`. -/
def scoreGE (c d : RetrievedChunk) : Prop := d.score ≤ c.score

noncomputable instance : DecidableRel scoreGE :=
  fun c d => inferInstanceAs (Decidable (d.score ≤ c.score))

instance : IsTotal RetrievedChunk scoreGE :=
  ⟨fun a b => le_total b.score a.score⟩

instance : IsTrans RetrievedChunk scoreGE :=
  ⟨fun _ _ _ hab hbc => le_trans hbc hab⟩

/-- External collaborators: the embedding model and the vector index.  A
raised exception is modelled as an `Except.error`. -/
structure Providers where
  embed : String → Except String (List ℝ)
  queryIndex : List ℝ → Nat → Except String QueryResult

/-- Sequential embedding of a list of texts (the sub-batched encode loop):
the first failure aborts the whole computation, as a raised exception would. -/
def mapExcept (f : α → Except ε β) : List α → Except ε (List β)
  | [] => .ok []
  | a :: as =>
    match f a with
    | .error e => .error e
    | .ok b =>
      match mapExcept f as with
      | .error e => .error e
      | .ok bs => .ok (b :: bs)

/-- The body of `retrieve_relevant_chunks` up to (and excluding) the final
sort: embed the query, query the index, build the chunk records, re-embed
the chunk texts and attach the exact cosine score to each candidate, in the
index's original approximate-rank order. -/
noncomputable def scoredCandidatesE (p : Providers) (query : String) (n : Nat) :
    Except String (List RetrievedChunk) :=
  match p.embed query with
  | .error e => .error e
  | .ok qEmb =>
    match p.queryIndex qEmb n with
    | .error e => .error e
    | .ok qr =>
      let base := buildChunks qr
      if base.isEmpty then .ok base
      else
        match mapExcept (fun c => p.embed c.text) base with
        | .error e => .error e
        | .ok embeds =>
          .ok (List.zipWith (fun c v => { c with score := cosine v qEmb }) base embeds)

/-- Full body of `retrieve_relevant_chunks` inside the `try` block: the
scored candidates, re-sorted descending by exact score with Python's stable
sort.  (When the candidate list is empty the code skips the sort; sorting the
empty list is the same.) -/
noncomputable def retrieveRelevantChunksE (p : Providers) (query : String) (n : Nat) :
    Except String (List RetrievedChunk) :=
  match scoredCandidatesE p query n with
  | .error e => .error e
  | .ok scored => .ok (List.insertionSort scoreGE scored)

/-- `retrieve_relevant_chunks` with its `try/except`: any error is caught
and an empty list is returned. -/
noncomputable def retrieveRelevantChunks (p : Providers) (query : String) (n : Nat) :
    List RetrievedChunk :=
  match retrieveRelevantChunksE p query n with
  | .ok l => l
  | .error _ => []

/-- The scored-but-unsorted candidates, `[]` on failure. -/
noncomputable def scoredCandidates (p : Providers) (query : String) (n : Nat) :
    List RetrievedChunk :=
  match scoredCandidatesE p query n with
  | .ok l => l
  | .error _ => []

/-- The candidates as built from the index answer, before scoring,
`[]` on failure. -/
def baseCandidates (p : Providers) (query : String) (n : Nat) : List RetrievedChunk :=
  match p.embed query with
  | .error _ => []
  | .ok qEmb =>
    match p.queryIndex qEmb n with
    | .error _ => []
    | .ok qr => buildChunks qr

/-- The chunk-rendering loop of `format_context_for_llm`, starting from label
`i` (Python enumerates from 1): each chunk renders as
`"[Source {i}: {source}]\n{text}\n\n"`. -/
def formatChunksFrom : Nat → List RetrievedChunk → String
  | _, [] => ""
  | i, c :: rest =>
    "[Source " ++ toString i ++ ": " ++ c.source ++ "]\n" ++ c.text ++ "\n\n"
      ++ formatChunksFrom (i + 1) rest

/-- `format_context_for_llm`: the sentinel for an empty chunk list, otherwise
a header followed by the rendered chunks. -/
def formatContextForLLM (chunks : List RetrievedChunk) : String :=
  if chunks.isEmpty then "No relevant information found in reference materials."
  else "Reference Material Citations:\n\n" ++ formatChunksFrom 1 chunks

/-- Result of one `get_relevant_context` call: the returned string, the cache
afterwards, and whether the retrieval pipeline (embedding provider plus
vector index) was invoked. -/
structure ContextResult where
  output : String
  cache : List (String × String)
  invokedRetrieval : Bool

/-- `get_relevant_context`: on hit return the cached value and mark the entry
most recently used; on miss retrieve, format, insert at the most-recent end,
and if the cache now exceeds `maxCacheSize` evict the least-recently-used
entry (`popitem(last=False)` removes the front of the order). -/
noncomputable def getRelevantContext (p : Providers) (cache : List (String × String))
    (query : String) (n : Nat) : ContextResult :=
  match cacheGet cache query with
  | some v => ⟨v, moveToEnd cache query, false⟩
  | none =>
    let formatted := formatContextForLLM (retrieveRelevantChunks p query n)
    let c1 := cache ++ [(query, formatted)]
    ⟨formatted, if c1.length > maxCacheSize then c1.drop 1 else c1, true⟩

/-- A sequence of `get_relevant_context` calls, tracking only the cache. -/
noncomputable def runQueries (p : Providers) (n : Nat)
    (cache : List (String × String)) : List String → List (String × String)
  | [] => cache
  | q :: qs => runQueries p n (getRelevantContext p cache q n).cache qs

/-- Effect counters of one `process_pdf` call: number of text extractions,
chunking passes, embedding-model calls, `collection.add` calls, and items
written to the index. -/
structure IngestTrace where
  extractCalls : Nat
  chunkCalls : Nat
  embedCalls : Nat
  addCalls : Nat
  itemsAdded : Nat
deriving DecidableEq

/-- Ceiling division, for batch counts. -/
def ceilDiv (a b : Nat) : Nat := (a + b - 1) / b

/-- Lengths of the successive `add` batches (`range(0, total, bs)`). -/
def batchLens (total bs : Nat) : List Nat :=
  (List.range (ceilDiv total bs)).map (fun i => min bs (total - i * bs))

/-- `process_pdf`, with the splitter and the extracted text as parameters and
the index item count as input state.  If the collection already has data the
function logs and returns immediately — a bare Python `return`, i.e. `None`
(`none`), with no extraction, chunking, embedding or `add` call.  Otherwise
it extracts, chunks, embeds in sub-batches of 64 inside add-batches of 1000,
writes every chunk, and falls off the end (again returning `None`). -/
def processPdf (splitter : String → List String) (indexCount : Nat) (text : String) :
    Option Nat × IngestTrace :=
  if indexCount > 0 then
    (none, ⟨0, 0, 0, 0, 0⟩)
  else
    let chunks := splitter text
    let total := chunks.length
    (none,
     ⟨1, 1, ((batchLens total 1000).map (fun L => ceilDiv L 64)).sum,
      ceilDiv total 1000, total⟩)

/-- Modelled from the spec: the Chunker of §4.1 splits text into windows of
`chunkSize` characters advancing by `step = chunkSize - overlap`; the
splitting algorithm itself lives in the external
`RecursiveCharacterTextSplitter` library, not in this repository's sources,
so it is taken from the specification's words ("segments of at most
`chunk_size` characters such that consecutive segments share `overlap`
characters of context").  The `step = 0` guard only serves termination and
is unreachable under the validated configuration. -/
def slidingChunks (step chunkSize : Nat) (text : List Char) : List (List Char) :=
  if h : text.length ≤ chunkSize ∨ step = 0 then [text]
  else text.take chunkSize :: slidingChunks step chunkSize (text.drop step)
termination_by text.length
decreasing_by
  simp only [List.length_drop]
  push_neg at h
  omega

/-- Error taxonomy of the Chunker contract (spec §7). -/
inductive ChunkError where
  | invalidParameters
deriving DecidableEq

/-- Modelled from the spec: the Chunker contract
`chunk(text, chunk_size, overlap)` of §4.1 — fails with `InvalidParameters`
if `overlap >= chunk_size`, otherwise produces the sliding-window segments. -/
def chunk (text : List Char) (chunkSize overlap : Nat) :
    Except ChunkError (List (List Char)) :=
  if overlap ≥ chunkSize then .error .invalidParameters
  else .ok (slidingChunks (chunkSize - overlap) chunkSize text)

/-- Concatenation of consecutive chunks' non-overlapping portions: the first
chunk whole, every later chunk without its first `overlap` characters. -/
def reconstruct (overlap : Nat) : List (List Char) → List Char
  | [] => []
  | c :: rest => c ++ (rest.map (fun d => d.drop overlap)).flatten

/-- Boolean test that `p` begins `l`. -/
def isPrefixList : List Char → List Char → Bool
  | [], _ => true
  | _ :: _, [] => false
  | a :: as, b :: bs => a == b && isPrefixList as bs

/-- Boolean substring test on character lists. -/
def hasSubstr (p : List Char) : List Char → Bool
  | [] => isPrefixList p []
  | c :: rest => isPrefixList p (c :: rest) || hasSubstr p rest

/-- Providers whose embedding model is unavailable: every call raises. -/
def failProviders : Providers :=
  ⟨fun _ => .error "unavailable", fun _ _ => .error "unavailable"⟩

/-- A concrete retrieved chunk used as test input. -/
noncomputable def chunkEx : RetrievedChunk :=
  ⟨"alpha", "ref.pdf", "42", none, 0⟩

/-- Default element for positional access into chunk lists. -/
noncomputable def defaultChunk : RetrievedChunk := ⟨"", "", "", none, 0⟩

/-- A concrete splitter used as test input for ingestion. -/
def sampleSplitter : String → List String := fun _ => ["x"]

/-- A concrete index answer whose metadata carries neither `source` nor
`chunk_id` and which has no distances array. -/
def qrMissingMeta : QueryResult := ⟨["doc text"], [⟨none, none⟩], none⟩

/-- Providers that embed the query text successfully and answer the index
query, but whose embedding model fails on every other text — i.e. the
failure strikes while re-embedding the candidate texts during the rerank. -/
noncomputable def rerankFailProviders : Providers :=
  ⟨fun t => if t == "q" then .ok [1] else .error "unavailable",
   fun _ _ => .ok ⟨["doc"], [⟨some "s", some "0"⟩], none⟩⟩

/-! ## Cache lemmas -/

theorem maxCacheSize_eq : maxCacheSize = 128 := rfl

theorem moveToEnd_length (c : List (String × String)) (q : String) :
    (moveToEnd c q).length = c.length := by
  induction c with
  | nil => rfl
  | cons e rest ih =>
    cases h : e.1 == q <;> simp [moveToEnd, h, ih]

theorem moveToEnd_perm (c : List (String × String)) (q : String) :
    (moveToEnd c q).Perm c := by
  induction c with
  | nil => simp [moveToEnd]
  | cons e rest ih =>
    cases h : e.1 == q
    · simpa [moveToEnd, h] using ih.cons e
    · simpa [moveToEnd, h] using List.perm_append_singleton e rest

theorem moveToEnd_getLast (c : List (String × String)) (q : String) (v : String)
    (h : cacheGet c q = some v) : (moveToEnd c q).getLast? = some (q, v) := by
  induction c with
  | nil => simp [cacheGet] at h
  | cons e rest ih =>
    cases hb : e.1 == q
    · simp only [cacheGet, hb, Bool.false_eq_true, if_false] at h
      have hlast := ih h
      simp only [moveToEnd, hb, Bool.false_eq_true, if_false]
      cases hm : moveToEnd rest q with
      | nil => rw [hm] at hlast; simp at hlast
      | cons b l => rw [hm] at hlast; rw [List.getLast?_cons_cons, hlast]
    · simp only [cacheGet, hb, if_true] at h
      have h1 : e.1 = q := by simpa using hb
      simp only [moveToEnd, hb, if_true, List.getLast?_concat]
      cases e
      simp_all

theorem getRelevantContext_cache_le (p : Providers) (n : Nat)
    (cache : List (String × String)) (q : String)
    (h : cache.length ≤ maxCacheSize) :
    (getRelevantContext p cache q n).cache.length ≤ maxCacheSize := by
  cases hcg : cacheGet cache q with
  | some v =>
    simp only [getRelevantContext, hcg]
    rw [moveToEnd_length]
    exact h
  | none =>
    simp only [getRelevantContext, hcg]
    split
    · simp only [List.length_drop, List.length_append, List.length_cons, List.length_nil]
      omega
    · rename_i hif
      simp only [gt_iff_lt, not_lt] at hif
      exact hif

theorem runQueries_length_le (p : Providers) (n : Nat) :
    ∀ (qs : List String) (cache : List (String × String)),
      cache.length ≤ maxCacheSize → (runQueries p n cache qs).length ≤ maxCacheSize := by
  intro qs
  induction qs with
  | nil => intro cache h; simpa [runQueries] using h
  | cons q qs ih =>
    intro cache h
    simp only [runQueries]
    exact ih _ (getRelevantContext_cache_le p n cache q h)

/-- C1: over any sequence of `get_relevant_context` calls the cache never
holds more than `maxCacheSize = 128` entries; a miss arriving at capacity
evicts exactly the least-recently-used entry (the front of the recency
order) and nothing else, a miss under capacity evicts nothing, and a hit
moves the accessed entry to the most-recently-used position (so recency is
set both by insertion and by cache-hit access). -/
theorem cache_lru_invariant (p : Providers) (n : Nat) :
    (∀ qs : List String, (runQueries p n [] qs).length ≤ maxCacheSize)
    ∧ (∀ (cache : List (String × String)) (q : String),
        cacheGet cache q = none → cache.length = maxCacheSize →
          (getRelevantContext p cache q n).cache
              = cache.drop 1 ++ [(q, formatContextForLLM (retrieveRelevantChunks p q n))]
            ∧ (getRelevantContext p cache q n).cache.length = maxCacheSize)
    ∧ (∀ (cache : List (String × String)) (q : String),
        cacheGet cache q = none → cache.length < maxCacheSize →
          (getRelevantContext p cache q n).cache
            = cache ++ [(q, formatContextForLLM (retrieveRelevantChunks p q n))])
    ∧ (∀ (cache : List (String × String)) (q v : String),
        cacheGet cache q = some v →
          (getRelevantContext p cache q n).cache.getLast? = some (q, v)) := by
  refine ⟨fun qs => runQueries_length_le p n qs [] (by simp), ?_, ?_, ?_⟩
  · intro cache q hmiss hcap
    have hcap' : cache.length = 128 := by rw [hcap, maxCacheSize_eq]
    simp only [getRelevantContext, hmiss]
    have hif : (cache ++ [(q, formatContextForLLM (retrieveRelevantChunks p q n))]).length
        > maxCacheSize := by
      simp [List.length_append, hcap', maxCacheSize_eq]
    rw [if_pos hif]
    constructor
    · exact List.drop_append_of_le_length (by omega)
    · simp only [List.length_drop, List.length_append, List.length_cons, List.length_nil,
        hcap', maxCacheSize_eq]
  · intro cache q hmiss hlt
    have hlt' : cache.length < 128 := by rw [← maxCacheSize_eq]; exact hlt
    simp only [getRelevantContext, hmiss]
    rw [if_neg]
    simp only [gt_iff_lt, not_lt, List.length_append, List.length_cons, List.length_nil,
      maxCacheSize_eq]
    omega
  · intro cache q v hhit
    simp only [getRelevantContext, hhit]
    exact moveToEnd_getLast cache q v hhit

/-- Witness for C1 at a concrete full cache and a fresh query. -/
theorem cache_lru_invariant_witness :
    cacheGet (List.replicate 128 ("k", "v")) "q" = none
    ∧ (List.replicate 128 (("k" : String), ("v" : String))).length = maxCacheSize
    ∧ (getRelevantContext failProviders (List.replicate 128 ("k", "v")) "q" 5).cache
        = (List.replicate 128 ("k", "v")).drop 1
          ++ [("q", formatContextForLLM (retrieveRelevantChunks failProviders "q" 5))] := by
  have h1 : cacheGet (List.replicate 128 ("k", "v")) "q" = none := by decide
  have h2 : (List.replicate 128 (("k" : String), ("v" : String))).length = maxCacheSize := by
    simp [maxCacheSize_eq]
  exact ⟨h1, h2, ((cache_lru_invariant failProviders 5).2.1 _ "q" h1 h2).1⟩

/-- C6: a cache hit returns the stored value, marks the entry most recently
used (it becomes the last of the recency order), performs no retrieval —
the result does not depend on the providers at all — and neither inserts
nor evicts: the new cache is a permutation of the old one of equal length. -/
theorem cache_hit_no_retrieval (p : Providers) (cache : List (String × String))
    (q : String) (n : Nat) (v : String) (h : cacheGet cache q = some v) :
    (getRelevantContext p cache q n).output = v
    ∧ (getRelevantContext p cache q n).invokedRetrieval = false
    ∧ (getRelevantContext p cache q n).cache.Perm cache
    ∧ (getRelevantContext p cache q n).cache.length = cache.length
    ∧ (getRelevantContext p cache q n).cache.getLast? = some (q, v)
    ∧ ∀ p' : Providers, getRelevantContext p' cache q n = getRelevantContext p cache q n := by
  refine ⟨?_, ?_, ?_, ?_, ?_, ?_⟩
  · simp [getRelevantContext, h]
  · simp [getRelevantContext, h]
  · simp only [getRelevantContext, h]
    exact moveToEnd_perm cache q
  · simp only [getRelevantContext, h]
    exact moveToEnd_length cache q
  · simp only [getRelevantContext, h]
    exact moveToEnd_getLast cache q v h
  · intro p'
    simp [getRelevantContext, h]

/-- Witness for C6 at a one-entry cache. -/
theorem cache_hit_no_retrieval_witness :
    cacheGet [("a", "x")] "a" = some "x"
    ∧ (getRelevantContext failProviders [("a", "x")] "a" 5).output = "x"
    ∧ (getRelevantContext failProviders [("a", "x")] "a" 5).invokedRetrieval = false := by
  have h : cacheGet [("a", "x")] "a" = some "x" := by decide
  have hc := cache_hit_no_retrieval failProviders [("a", "x")] "a" 5 "x" h
  exact ⟨h, hc.1, hc.2.1⟩

/-- C2: an embedding-provider or vector-index error inside
`retrieve_relevant_chunks` — at any of the three external call sites of the
`try` block: embedding the query, querying the index, or re-embedding the
candidate texts during the rerank — is caught and yields the empty chunk
list, the empty list is formatted as the sentinel string, and on a miss this
sentinel is stored in the cache like any other result (the model is a total
function, so no exception can propagate out of `get_relevant_context`). -/
theorem retrieval_failure_degrades (p : Providers) (q : String) (n : Nat) (e : String)
    (cache : List (String × String))
    (herr : p.embed q = .error e
      ∨ (∃ qe, p.embed q = .ok qe ∧ p.queryIndex qe n = .error e)
      ∨ (∃ qe qr, p.embed q = .ok qe ∧ p.queryIndex qe n = .ok qr
          ∧ mapExcept (fun c => p.embed c.text) (buildChunks qr) = .error e))
    (hmiss : cacheGet cache q = none) :
    retrieveRelevantChunks p q n = []
    ∧ (getRelevantContext p cache q n).output
        = "No relevant information found in reference materials."
    ∧ ("No relevant information found in reference materials.")
        ∈ ((getRelevantContext p cache q n).cache.map Prod.snd)
    ∧ (q, "No relevant information found in reference materials.")
        ∈ (getRelevantContext p cache q n).cache := by
  have hsc : scoredCandidatesE p q n = .error e := by
    rcases herr with h1 | ⟨qe, h1, h2⟩ | ⟨qe, qr, h1, h2, h3⟩
    · simp [scoredCandidatesE, h1]
    · simp [scoredCandidatesE, h1, h2]
    · have hne : (buildChunks qr).isEmpty = false := by
        cases hb : buildChunks qr with
        | nil => rw [hb] at h3; simp [mapExcept] at h3
        | cons c cs => rfl
      simp [scoredCandidatesE, h1, h2, hne, h3]
  have hr : retrieveRelevantChunks p q n = [] := by
    simp [retrieveRelevantChunks, retrieveRelevantChunksE, hsc]
  have hmem : (q, "No relevant information found in reference materials.")
      ∈ (getRelevantContext p cache q n).cache := by
    simp only [getRelevantContext, hmiss, hr]
    split
    · cases cache with
      | nil => simp_all [maxCacheSize_eq]
      | cons c cs =>
        simp [formatContextForLLM]
    · simp [formatContextForLLM]
  refine ⟨hr, ?_, ?_, hmem⟩
  · simp [getRelevantContext, hmiss, hr, formatContextForLLM]
  · exact List.mem_map_of_mem Prod.snd hmem

/-- Witness for C2, covering two failure sites on an empty cache: a provider
whose query-embedding call fails, and a provider that fails only while
re-embedding the candidate texts during the rerank. -/
theorem retrieval_failure_degrades_witness :
    failProviders.embed "q" = .error "unavailable"
    ∧ retrieveRelevantChunks failProviders "q" 5 = []
    ∧ (getRelevantContext failProviders [] "q" 5).output
        = "No relevant information found in reference materials."
    ∧ ("q", "No relevant information found in reference materials.")
        ∈ (getRelevantContext failProviders [] "q" 5).cache
    ∧ mapExcept (fun c => rerankFailProviders.embed c.text)
        (buildChunks ⟨["doc"], [⟨some "s", some "0"⟩], none⟩) = .error "unavailable"
    ∧ retrieveRelevantChunks rerankFailProviders "q" 5 = []
    ∧ (getRelevantContext rerankFailProviders [] "q" 5).output
        = "No relevant information found in reference materials." := by
  have h1 := retrieval_failure_degrades failProviders "q" 5 "unavailable" [] (Or.inl rfl) rfl
  have hmap : mapExcept (fun c => rerankFailProviders.embed c.text)
      (buildChunks ⟨["doc"], [⟨some "s", some "0"⟩], none⟩) = .error "unavailable" := by
    rfl
  have h2 := retrieval_failure_degrades rerankFailProviders "q" 5 "unavailable" []
    (Or.inr (Or.inr ⟨[1], ⟨["doc"], [⟨some "s", some "0"⟩], none⟩, rfl, rfl, hmap⟩)) rfl
  exact ⟨rfl, h1.1, h1.2.1, h1.2.2.2, hmap, h2.1, h2.2.1⟩

/-! ## Rerank sort lemmas -/

theorem orderedInsert_filter_score (s : ℝ) (c : RetrievedChunk) (l : List RetrievedChunk) :
    (List.orderedInsert scoreGE c l).filter (fun d => decide (d.score = s))
      = if c.score = s then c :: l.filter (fun d => decide (d.score = s))
        else l.filter (fun d => decide (d.score = s)) := by
  induction l with
  | nil =>
    by_cases h : c.score = s <;> simp [List.orderedInsert, List.filter, h]
  | cons d ds ih =>
    rw [List.orderedInsert]
    by_cases hcd : scoreGE c d
    · rw [if_pos hcd]
      by_cases h : c.score = s <;> simp [List.filter_cons, h]
    · rw [if_neg hcd]
      by_cases h : c.score = s
      · have hds : ¬ d.score = s := by
          intro hd
          exact hcd (le_of_eq (hd.trans h.symm))
        simp [List.filter_cons, hds, ih, h]
      · by_cases hd : d.score = s <;> simp [List.filter_cons, hd, ih, h]

theorem insertionSort_filter_score (s : ℝ) (l : List RetrievedChunk) :
    (List.insertionSort scoreGE l).filter (fun d => decide (d.score = s))
      = l.filter (fun d => decide (d.score = s)) := by
  induction l with
  | nil => rfl
  | cons c cs ih =>
    simp only [List.insertionSort]
    rw [orderedInsert_filter_score]
    by_cases h : c.score = s <;> simp [List.filter_cons, h, ih]

theorem mapExcept_ok_length (f : α → Except ε β) :
    ∀ (l : List α) (l' : List β), mapExcept f l = .ok l' → l'.length = l.length := by
  intro l
  induction l with
  | nil =>
    intro l' h
    simp only [mapExcept, Except.ok.injEq] at h
    simp [← h]
  | cons a as ih =>
    intro l' h
    simp only [mapExcept] at h
    cases hf : f a with
    | error e => rw [hf] at h; simp at h
    | ok b =>
      rw [hf] at h
      cases hm : mapExcept f as with
      | error e => rw [hm] at h; simp at h
      | ok bs =>
        rw [hm] at h
        simp only [Except.ok.injEq] at h
        subst h
        simp [ih bs hm]

theorem zip_score_fields (qEmb : List ℝ) (p : Providers) :
    ∀ (base : List RetrievedChunk) (embeds : List (List ℝ)),
      mapExcept (fun c => p.embed c.text) base = .ok embeds →
      ((List.zipWith (fun c v => { c with score := cosine v qEmb }) base embeds).map
          (fun c => (c.text, c.source, c.chunkId, c.distance))
        = base.map (fun c => (c.text, c.source, c.chunkId, c.distance)))
      ∧ ∀ c ∈ List.zipWith (fun c v => { c with score := cosine v qEmb }) base embeds,
          ∃ v, p.embed c.text = .ok v ∧ c.score = cosine v qEmb := by
  intro base
  induction base with
  | nil =>
    intro embeds h
    simp only [mapExcept, Except.ok.injEq] at h
    simp [← h]
  | cons b bs ih =>
    intro embeds h
    simp only [mapExcept] at h
    cases hf : p.embed b.text with
    | error e => rw [hf] at h; simp at h
    | ok v0 =>
      rw [hf] at h
      cases hm : mapExcept (fun c => p.embed c.text) bs with
      | error e => rw [hm] at h; simp at h
      | ok vs =>
        rw [hm] at h
        simp only [Except.ok.injEq] at h
        subst h
        obtain ⟨ih1, ih2⟩ := ih vs hm
        refine ⟨by simp [ih1], ?_⟩
        intro c hc
        simp only [List.zipWith_cons_cons, List.mem_cons] at hc
        rcases hc with rfl | hc
        · exact ⟨v0, by simpa using hf, rfl⟩
        · exact ih2 c hc

theorem scoredCandidatesE_ok_spec (p : Providers) (q : String) (n : Nat)
    (scored : List RetrievedChunk) (h : scoredCandidatesE p q n = .ok scored) :
    (∀ c ∈ scored, ∃ d ∈ baseCandidates p q n,
        c.text = d.text ∧ c.source = d.source ∧ c.chunkId = d.chunkId
          ∧ c.distance = d.distance)
    ∧ (∀ c ∈ scored,
        ∃ v qe, p.embed q = .ok qe ∧ p.embed c.text = .ok v ∧ c.score = cosine v qe) := by
  cases hq : p.embed q with
  | error e => simp [scoredCandidatesE, hq] at h
  | ok qe =>
    cases hqi : p.queryIndex qe n with
    | error e => simp [scoredCandidatesE, hq, hqi] at h
    | ok qr =>
      simp only [scoredCandidatesE, hq, hqi] at h
      by_cases hbe : (buildChunks qr).isEmpty
      · rw [if_pos hbe] at h
        simp only [Except.ok.injEq] at h
        subst h
        have hnil : buildChunks qr = [] := List.isEmpty_iff.mp hbe
        simp [hnil]
      · rw [if_neg hbe] at h
        cases hm : mapExcept (fun c => p.embed c.text) (buildChunks qr) with
        | error e => rw [hm] at h; simp at h
        | ok embeds =>
          rw [hm] at h
          simp only [Except.ok.injEq] at h
          subst h
          obtain ⟨h1, h2⟩ := zip_score_fields qe p (buildChunks qr) embeds hm
          constructor
          · intro c hc
            have hmem : (c.text, c.source, c.chunkId, c.distance)
                ∈ (buildChunks qr).map (fun c => (c.text, c.source, c.chunkId, c.distance)) := by
              rw [← h1]
              exact List.mem_map_of_mem _ hc
            obtain ⟨d, hd, hde⟩ := List.mem_map.mp hmem
            refine ⟨d, ?_, ?_⟩
            · show d ∈ baseCandidates p q n
              simp only [baseCandidates, hq, hqi]
              exact hd
            · simp only [Prod.mk.injEq] at hde
              exact ⟨hde.1.symm, hde.2.1.symm, hde.2.2.1.symm, hde.2.2.2.symm⟩
          · intro c hc
            obtain ⟨v, hv1, hv2⟩ := h2 c hc
            exact ⟨v, qe, rfl, hv1, hv2⟩

/-- C3: the list returned by `retrieve_relevant_chunks` is sorted by exact
cosine score, descending (`scoreGE` pairwise, i.e. `score[i] >= score[i+1]`
for all adjacent positions); it is a permutation of the scored candidates,
and the sort is stable: for every score value the sub-list at that score
keeps the candidates' original approximate-rank order.  Each returned chunk
carries the text, source, chunk id and approximate distance of an index
candidate (the distance being `none` exactly when the index supplied none),
together with its exact cosine score against the query embedding. -/
theorem retrieve_rerank_sorted_stable (p : Providers) (q : String) (n : Nat) :
    (retrieveRelevantChunks p q n).Pairwise scoreGE
    ∧ (retrieveRelevantChunks p q n).Perm (scoredCandidates p q n)
    ∧ (∀ s : ℝ, (retrieveRelevantChunks p q n).filter (fun c => decide (c.score = s))
        = (scoredCandidates p q n).filter (fun c => decide (c.score = s)))
    ∧ (∀ c ∈ retrieveRelevantChunks p q n, ∃ d ∈ baseCandidates p q n,
        c.text = d.text ∧ c.source = d.source ∧ c.chunkId = d.chunkId
          ∧ c.distance = d.distance)
    ∧ (∀ c ∈ retrieveRelevantChunks p q n,
        ∃ v qe, p.embed q = .ok qe ∧ p.embed c.text = .ok v ∧ c.score = cosine v qe) := by
  cases hsc : scoredCandidatesE p q n with
  | error e =>
    have h1 : retrieveRelevantChunks p q n = [] := by
      simp [retrieveRelevantChunks, retrieveRelevantChunksE, hsc]
    have h2 : scoredCandidates p q n = [] := by simp [scoredCandidates, hsc]
    simp [h1, h2]
  | ok scored =>
    have h1 : retrieveRelevantChunks p q n = List.insertionSort scoreGE scored := by
      simp [retrieveRelevantChunks, retrieveRelevantChunksE, hsc]
    have h2 : scoredCandidates p q n = scored := by simp [scoredCandidates, hsc]
    obtain ⟨hf, hp⟩ := scoredCandidatesE_ok_spec p q n scored hsc
    rw [h1, h2]
    refine ⟨List.sorted_insertionSort scoreGE scored, List.perm_insertionSort scoreGE scored,
      fun s => insertionSort_filter_score s scored, ?_, ?_⟩
    · intro c hc
      exact hf c ((List.mem_insertionSort scoreGE).mp hc)
    · intro c hc
      exact hp c ((List.mem_insertionSort scoreGE).mp hc)

/-- Witness for C3 at concrete inputs. -/
theorem retrieve_rerank_sorted_stable_witness :
    (retrieveRelevantChunks failProviders "q" 5).Pairwise scoreGE
    ∧ (retrieveRelevantChunks failProviders "q" 5).Perm
        (scoredCandidates failProviders "q" 5) :=
  ⟨(retrieve_rerank_sorted_stable failProviders "q" 5).1,
   (retrieve_rerank_sorted_stable failProviders "q" 5).2.1⟩

/-! ## Cosine lemmas -/

theorem sumSq_nonneg (a : List ℝ) : 0 ≤ (a.map (fun x => x * x)).sum := by
  apply List.sum_nonneg
  intro x hx
  obtain ⟨y, _, rfl⟩ := List.mem_map.mp hx
  exact mul_self_nonneg y

theorem dotList_comm (a b : List ℝ) : dotList a b = dotList b a := by
  unfold dotList
  rw [List.zipWith_comm_of_comm (fun x y => x * y) (fun x y => mul_comm x y)]

theorem dotList_cons (x y : ℝ) (as bs : List ℝ) :
    dotList (x :: as) (y :: bs) = x * y + dotList as bs := by
  simp [dotList]

theorem dotList_sq_le (a : List ℝ) :
    ∀ b : List ℝ,
      dotList a b ^ 2 ≤ ((a.map (fun x => x * x)).sum) * ((b.map (fun x => x * x)).sum) := by
  induction a with
  | nil => intro b; simp [dotList]
  | cons x as ih =>
    intro b
    cases b with
    | nil => simp [dotList]
    | cons y bs =>
      have hA : 0 ≤ (as.map (fun x => x * x)).sum := sumSq_nonneg as
      have hB : 0 ≤ (bs.map (fun x => x * x)).sum := sumSq_nonneg bs
      have hd := ih bs
      rw [dotList_cons]
      simp only [List.map_cons, List.sum_cons]
      rcases eq_or_lt_of_le hB with hB0 | hBpos
      · have hsq0 : dotList as bs ^ 2 ≤ 0 := by
          rw [← hB0, mul_zero] at hd
          exact hd
        have hd0 : dotList as bs = 0 :=
          (pow_eq_zero_iff two_ne_zero).mp (le_antisymm hsq0 (sq_nonneg _))
        rw [hd0, ← hB0]
        nlinarith [mul_nonneg hA (mul_self_nonneg y)]
      · nlinarith [sq_nonneg (x * (bs.map (fun x => x * x)).sum - y * dotList as bs),
          mul_nonneg (sub_nonneg.mpr hd) (mul_self_nonneg y),
          mul_nonneg (sub_nonneg.mpr hd) hBpos.le, hBpos]

/-- C4: the local `cosine` is symmetric, bounded in `[-1, 1]`, and returns
`0.0` whenever either vector has zero norm; being a total function that
branches on zero norms before dividing, it never divides by zero and never
raises. -/
theorem cosine_spec (a b : List ℝ) :
    cosine a b = cosine b a
    ∧ (-1 ≤ cosine a b ∧ cosine a b ≤ 1)
    ∧ ((vecNorm a = 0 ∨ vecNorm b = 0) → cosine a b = 0) := by
  have hzero : (vecNorm a = 0 ∨ vecNorm b = 0) → cosine a b = 0 := fun h => by
    simp [cosine, h]
  have hsymm : cosine a b = cosine b a := by
    unfold cosine
    by_cases h : vecNorm a = 0 ∨ vecNorm b = 0
    · rw [if_pos h, if_pos h.symm]
    · rw [if_neg h, if_neg (fun hc => h hc.symm), dotList_comm, mul_comm]
  have hbound : -1 ≤ cosine a b ∧ cosine a b ≤ 1 := by
    by_cases h : vecNorm a = 0 ∨ vecNorm b = 0
    · rw [hzero h]
      norm_num
    · push_neg at h
      obtain ⟨ha, hb⟩ := h
      have hA := sumSq_nonneg a
      have hB := sumSq_nonneg b
      have hna : 0 < vecNorm a := lt_of_le_of_ne (Real.sqrt_nonneg _) (Ne.symm ha)
      have hnb : 0 < vecNorm b := lt_of_le_of_ne (Real.sqrt_nonneg _) (Ne.symm hb)
      have hpos : 0 < vecNorm a * vecNorm b := mul_pos hna hnb
      have hsq : dotList a b ^ 2 ≤ (vecNorm a * vecNorm b) ^ 2 := by
        have h1 : vecNorm a ^ 2 = (a.map (fun x => x * x)).sum := Real.sq_sqrt hA
        have h2 : vecNorm b ^ 2 = (b.map (fun x => x * x)).sum := Real.sq_sqrt hB
        calc dotList a b ^ 2
            ≤ ((a.map (fun x => x * x)).sum) * ((b.map (fun x => x * x)).sum) :=
              dotList_sq_le a b
          _ = (vecNorm a * vecNorm b) ^ 2 := by rw [mul_pow, h1, h2]
      have habs : |dotList a b| ≤ vecNorm a * vecNorm b := by
        calc |dotList a b| = Real.sqrt (dotList a b ^ 2) := (Real.sqrt_sq_eq_abs _).symm
          _ ≤ Real.sqrt ((vecNorm a * vecNorm b) ^ 2) := Real.sqrt_le_sqrt hsq
          _ = |vecNorm a * vecNorm b| := Real.sqrt_sq_eq_abs _
          _ = vecNorm a * vecNorm b := abs_of_nonneg hpos.le
      obtain ⟨hl, hr⟩ := abs_le.mp habs
      have hc : cosine a b = dotList a b / (vecNorm a * vecNorm b) := by
        rw [cosine, if_neg (not_or.mpr ⟨ha, hb⟩)]
      rw [hc]
      constructor
      · rw [le_div_iff hpos]
        linarith
      · rw [div_le_one hpos]
        exact hr
  exact ⟨hsymm, hbound, hzero⟩

/-- Witness for C4: one vector of zero norm. -/
theorem cosine_spec_witness :
    cosine [(0 : ℝ)] [3] = 0 ∧ cosine [(0 : ℝ)] [3] = cosine [3] [0] := by
  have h := cosine_spec [(0 : ℝ)] [3]
  have hz : vecNorm [(0 : ℝ)] = 0 := by simp [vecNorm]
  exact ⟨h.2.2 (Or.inl hz), h.1⟩

/-! ## Ingestion idempotence -/

/-- C5 counterexample: on an already-populated index (`count = 1`),
`process_pdf` does perform zero writes, but it returns `None` (modelled
`none`), not `0`, so the claim's conjunction "performs zero additional
writes and returns 0" is false as stated. -/
theorem processPdf_populated_not_zero :
    ¬ ((processPdf sampleSplitter 1 "doc").2 = (⟨0, 0, 0, 0, 0⟩ : IngestTrace)
        ∧ (processPdf sampleSplitter 1 "doc").1 = some 0) := by
  decide

/-- C5 amended: whenever the index reports a non-zero stored-item count,
`process_pdf` performs no text extraction, no chunking, no embedding call,
no `add` call and writes no items, and returns without a value (`None`),
not the count `0`. -/
theorem processPdf_skip_no_writes (splitter : String → List String) (indexCount : Nat)
    (text : String) (h : 0 < indexCount) :
    (processPdf splitter indexCount text).1 = none
    ∧ (processPdf splitter indexCount text).2 = (⟨0, 0, 0, 0, 0⟩ : IngestTrace) := by
  simp [processPdf, h]

/-- Witness for the amended C5 at `count = 1`. -/
theorem processPdf_skip_no_writes_witness :
    0 < 1
    ∧ (processPdf sampleSplitter 1 "doc").1 = none
    ∧ (processPdf sampleSplitter 1 "doc").2 = (⟨0, 0, 0, 0, 0⟩ : IngestTrace) := by
  have h := processPdf_skip_no_writes sampleSplitter 1 "doc" (by decide)
  exact ⟨by decide, h.1, h.2⟩

/-! ## Substring machinery and context formatting -/

theorem isPrefixList_iff (p : List Char) :
    ∀ l, isPrefixList p l = true ↔ ∃ t, l = p ++ t := by
  induction p with
  | nil => intro l; simp [isPrefixList]
  | cons a as ih =>
    intro l
    cases l with
    | nil => simp [isPrefixList]
    | cons b bs =>
      rw [isPrefixList, Bool.and_eq_true, beq_iff_eq, ih bs]
      constructor
      · rintro ⟨rfl, t, rfl⟩
        exact ⟨t, rfl⟩
      · rintro ⟨t, h⟩
        injection h with h1 h2
        exact ⟨h1.symm, t, h2⟩

theorem hasSubstr_iff (p : List Char) :
    ∀ l, hasSubstr p l = true ↔ ∃ s t, l = s ++ p ++ t := by
  intro l
  induction l with
  | nil =>
    simp only [hasSubstr]
    rw [isPrefixList_iff]
    constructor
    · rintro ⟨t, h⟩
      exact ⟨[], t, by simpa using h⟩
    · rintro ⟨s, t, h⟩
      rcases List.append_eq_nil.mp h.symm with ⟨h1, ht⟩
      rcases List.append_eq_nil.mp h1 with ⟨hs, hp⟩
      exact ⟨[], by simp [hp]⟩
  | cons c cs ih =>
    simp only [hasSubstr]
    rw [Bool.or_eq_true, isPrefixList_iff, ih]
    constructor
    · rintro (⟨t, h⟩ | ⟨s, t, h⟩)
      · exact ⟨[], t, by simpa using h⟩
      · exact ⟨c :: s, t, by simp [h]⟩
    · rintro ⟨s, t, h⟩
      cases s with
      | nil => exact Or.inl ⟨t, by simpa using h⟩
      | cons s0 ss =>
        right
        injection h with h1 h2
        exact ⟨ss, t, h2⟩

theorem formatChunksFrom_infix_tag :
    ∀ (chunks : List RetrievedChunk) (k i : Nat) (h : i < chunks.length),
      ∃ s t, (formatChunksFrom k chunks).data
        = s ++ ("[Source " ++ toString (k + i) ++ ": " ++ (chunks.get ⟨i, h⟩).source
            ++ "]\n" ++ (chunks.get ⟨i, h⟩).text ++ "\n\n").data ++ t := by
  intro chunks
  induction chunks with
  | nil => intro k i h; simp at h
  | cons c cs ih =>
    intro k i h
    cases i with
    | zero =>
      refine ⟨[], (formatChunksFrom (k + 1) cs).data, ?_⟩
      simp [formatChunksFrom, String.data_append, List.get]
    | succ j =>
      have h' : j < cs.length := Nat.lt_of_succ_lt_succ h
      obtain ⟨s, t, hst⟩ := ih (k + 1) j h'
      refine ⟨("[Source " ++ toString k ++ ": " ++ c.source ++ "]\n" ++ c.text
        ++ "\n\n").data ++ s, t, ?_⟩
      have hk : k + 1 + j = k + (j + 1) := by omega
      simp only [formatChunksFrom, String.data_append]
      rw [hst, hk]
      simp [List.append_assoc, List.get]

/-- C7 counterexample: for the single retrieved chunk with chunk id `"42"`,
the formatted context does not contain the chunk identifier anywhere —
`format_context_for_llm` renders `[Source {i}: {source}]` with the 1-based
result position `i`, never the chunk's `chunk_id` — so no citation tag can
carry the chunk identifier as the claim requires. -/
theorem format_tag_missing_chunk_id :
    ¬ ∃ s t, (formatContextForLLM [chunkEx]).data = s ++ "42".data ++ t := by
  intro hex
  have h42 : hasSubstr "42".data (formatContextForLLM [chunkEx]).data = true :=
    (hasSubstr_iff "42".data _).mpr hex
  have hfalse : hasSubstr "42".data (formatContextForLLM [chunkEx]).data = false := by
    decide
  rw [hfalse] at h42
  exact Bool.false_ne_true h42

/-- C7 amended: for every non-empty retrieved-chunk sequence, the formatted
context contains, for the chunk at (0-based) position `i`, a visible
citation tag `[Source {i+1}: {source}]` carrying the chunk's source document
identifier and its 1-based result position, followed by the chunk's text;
the chunk's stored `chunk_id` is not part of the tag. -/
theorem format_renders_source_and_position (chunks : List RetrievedChunk) (i : Nat)
    (h : i < chunks.length) :
    ∃ s t, (formatContextForLLM chunks).data
      = s ++ ("[Source " ++ toString (i + 1) ++ ": " ++ (chunks.get ⟨i, h⟩).source
          ++ "]\n" ++ (chunks.get ⟨i, h⟩).text ++ "\n\n").data ++ t := by
  have hne : chunks.isEmpty = false := by
    cases chunks with
    | nil => simp at h
    | cons c cs => rfl
  obtain ⟨s, t, hst⟩ := formatChunksFrom_infix_tag chunks 1 i h
  refine ⟨"Reference Material Citations:\n\n".data ++ s, t, ?_⟩
  have h1 : 1 + i = i + 1 := by omega
  rw [formatContextForLLM, hne]
  simp only [Bool.false_eq_true, if_false, String.data_append]
  rw [hst, h1]
  simp [List.append_assoc]

/-- Witness for the amended C7 at a concrete one-chunk list. -/
theorem format_renders_source_and_position_witness :
    ∃ s t, (formatContextForLLM [chunkEx]).data
      = s ++ ("[Source " ++ toString (0 + 1) ++ ": " ++ chunkEx.source
          ++ "]\n" ++ chunkEx.text ++ "\n\n").data ++ t :=
  format_renders_source_and_position [chunkEx] 0 (by decide)

/-! ## Chunker lemmas (spec-modelled, §4.1) -/

theorem slidingChunks_join_drop (step cs ov : Nat) (hstep : 0 < step)
    (hsum : step + ov = cs) :
    ∀ t : List Char,
      ((slidingChunks step cs t).map (fun c => c.drop ov)).flatten = t.drop ov := by
  have H : ∀ (N : Nat) (t : List Char), t.length ≤ N →
      ((slidingChunks step cs t).map (fun c => c.drop ov)).flatten = t.drop ov := by
    intro N
    induction N with
    | zero =>
      intro t ht
      have ht0 : t = [] := List.length_eq_zero.mp (Nat.le_zero.mp ht)
      subst ht0
      rw [slidingChunks, dif_pos (Or.inl (by simp))]
      simp
    | succ N ihN =>
      intro t ht
      rw [slidingChunks]
      by_cases hg : t.length ≤ cs ∨ step = 0
      · rw [dif_pos hg]
        simp
      · rw [dif_neg hg]
        push_neg at hg
        obtain ⟨hlen, _⟩ := hg
        simp only [List.map_cons, List.flatten_cons]
        rw [ihN (t.drop step) (by simp only [List.length_drop]; omega)]
        have h1 : cs - ov = step := by omega
        have h2 : (t.drop step).drop ov = (t.drop ov).drop step := by
          rw [List.drop_drop, List.drop_drop]
          congr 1
          omega
        rw [List.drop_take, h1, h2]
        exact List.take_append_drop step (t.drop ov)
  exact fun t => H t.length t le_rfl

theorem slidingChunks_head (step cs : Nat) (hstep : 0 < step) (t : List Char) :
    ∃ rest, slidingChunks step cs t = t.take cs :: rest := by
  rw [slidingChunks]
  by_cases hg : t.length ≤ cs ∨ step = 0
  · rw [dif_pos hg]
    rcases hg with hle | h0
    · exact ⟨[], by rw [List.take_of_length_le hle]⟩
    · omega
  · rw [dif_neg hg]
    exact ⟨_, rfl⟩

theorem slidingChunks_le (step cs : Nat) (hstep : 0 < step) :
    ∀ t : List Char, ∀ c ∈ slidingChunks step cs t, c.length ≤ cs := by
  have H : ∀ (N : Nat) (t : List Char), t.length ≤ N →
      ∀ c ∈ slidingChunks step cs t, c.length ≤ cs := by
    intro N
    induction N with
    | zero =>
      intro t ht c hc
      have ht0 : t = [] := List.length_eq_zero.mp (Nat.le_zero.mp ht)
      subst ht0
      rw [slidingChunks, dif_pos (Or.inl (by simp))] at hc
      simp at hc
      simp [hc]
    | succ N ihN =>
      intro t ht c hc
      rw [slidingChunks] at hc
      by_cases hg : t.length ≤ cs ∨ step = 0
      · rw [dif_pos hg] at hc
        rcases hg with hle | h0
        · simp at hc
          simpa [hc] using hle
        · omega
      · rw [dif_neg hg] at hc
        push_neg at hg
        obtain ⟨hlen, _⟩ := hg
        rcases List.mem_cons.mp hc with rfl | hc
        · simpa using Nat.min_le_left cs t.length
        · exact ihN (t.drop step) (by simp only [List.length_drop]; omega) c hc
  exact fun t => H t.length t le_rfl

theorem slidingChunks_chain (step cs ov : Nat) (hstep : 0 < step)
    (hsum : step + ov = cs) :
    ∀ t : List Char,
      (slidingChunks step cs t).Chain' (fun c d => d.take ov = c.drop (cs - ov)) := by
  have H : ∀ (N : Nat) (t : List Char), t.length ≤ N →
      (slidingChunks step cs t).Chain' (fun c d => d.take ov = c.drop (cs - ov)) := by
    intro N
    induction N with
    | zero =>
      intro t ht
      have ht0 : t = [] := List.length_eq_zero.mp (Nat.le_zero.mp ht)
      subst ht0
      rw [slidingChunks, dif_pos (Or.inl (by simp))]
      simp
    | succ N ihN =>
      intro t ht
      rw [slidingChunks]
      by_cases hg : t.length ≤ cs ∨ step = 0
      · rw [dif_pos hg]
        simp
      · rw [dif_neg hg]
        push_neg at hg
        obtain ⟨hlen, _⟩ := hg
        refine List.chain'_cons'.mpr
          ⟨?_, ihN (t.drop step) (by simp only [List.length_drop]; omega)⟩
        intro b hb
        obtain ⟨rest, hr⟩ := slidingChunks_head step cs hstep (t.drop step)
        rw [hr] at hb
        simp only [List.head?_cons, Option.mem_def, Option.some.injEq] at hb
        subst hb
        have hov : ov ≤ cs := by omega
        have h1 : cs - ov = step := by omega
        have h2 : cs - (cs - ov) = ov := by omega
        rw [List.take_take, min_eq_left hov, List.drop_take, h1]
        congr 1
        omega
  exact fun t => H t.length t le_rfl

/-- C8 (Chunker modelled from the spec, §4.1): for every configuration with
`overlap < chunk_size`, chunking succeeds and (i) concatenating consecutive
chunks' non-overlapping portions reconstructs the original text exactly,
(ii) every segment has at most `chunk_size` characters, and (iii) each
consecutive pair of segments shares `overlap` characters of context (the
next segment starts with the previous one's last `overlap` characters). -/
theorem chunk_lossless (chunkSize overlap : Nat) (t : List Char)
    (h : overlap < chunkSize) :
    ∃ l, chunk t chunkSize overlap = .ok l
      ∧ reconstruct overlap l = t
      ∧ (∀ c ∈ l, c.length ≤ chunkSize)
      ∧ l.Chain' (fun c d => d.take overlap = c.drop (chunkSize - overlap)) := by
  have hstep : 0 < chunkSize - overlap := by omega
  have hsum : (chunkSize - overlap) + overlap = chunkSize := by omega
  refine ⟨slidingChunks (chunkSize - overlap) chunkSize t, ?_, ?_, ?_, ?_⟩
  · rw [chunk, if_neg (by omega)]
  · rw [slidingChunks]
    by_cases hg : t.length ≤ chunkSize ∨ chunkSize - overlap = 0
    · rw [dif_pos hg]
      simp [reconstruct]
    · rw [dif_neg hg]
      simp only [reconstruct]
      rw [slidingChunks_join_drop _ _ _ hstep hsum, List.drop_drop, hsum]
      exact List.take_append_drop chunkSize t
  · exact slidingChunks_le _ _ hstep t
  · exact slidingChunks_chain _ _ _ hstep hsum t

/-- Witness for C8 at `chunk_size = 3`, `overlap = 1`, text `"abcde"`. -/
theorem chunk_lossless_witness :
    1 < 3 ∧ ∃ l, chunk "abcde".data 3 1 = .ok l ∧ reconstruct 1 l = "abcde".data
      ∧ (∀ c ∈ l, c.length ≤ 3)
      ∧ l.Chain' (fun c d => d.take 1 = c.drop (3 - 1)) :=
  ⟨by decide, chunk_lossless 3 1 "abcde".data (by decide)⟩

/-- C9 (Chunker modelled from the spec, §4.1): chunking fails with
`InvalidParameters` exactly on configurations with `overlap >= chunk_size`;
every valid configuration succeeds (the operation is a pure function, so
it has no side effects). -/
theorem chunk_param_validation (chunkSize overlap : Nat) (t : List Char) :
    (overlap ≥ chunkSize → chunk t chunkSize overlap = .error .invalidParameters)
    ∧ (overlap < chunkSize → ∃ l, chunk t chunkSize overlap = .ok l) := by
  constructor
  · intro h
    rw [chunk, if_pos h]
  · intro h
    exact ⟨_, by rw [chunk, if_neg (by omega)]⟩

/-- Witness for C9: an invalid and a valid configuration. -/
theorem chunk_param_validation_witness :
    chunk "ab".data 2 3 = .error .invalidParameters
    ∧ ∃ l, chunk "ab".data 3 1 = .ok l :=
  ⟨(chunk_param_validation 2 3 "ab".data).1 (by decide),
   (chunk_param_validation 3 1 "ab".data).2 (by decide)⟩

/-! ## Result building defaults -/

/-- C10: a candidate whose metadata lacks `source` or `chunk_id` is not
dropped and raises no error: the built chunk carries the default string
`"Unknown"` for each missing field, and a missing distances array yields an
absent (`none`) approximate distance; the built list has one chunk per
returned document. -/
theorem build_chunks_defaults (qr : QueryResult) (i : Nat)
    (h : i < qr.documents.length) :
    (buildChunks qr).length = qr.documents.length
    ∧ ((buildChunks qr).getD i defaultChunk).text = qr.documents.getD i ""
    ∧ ((qr.metadatas.getD i ⟨none, none⟩).source = none →
        ((buildChunks qr).getD i defaultChunk).source = "Unknown")
    ∧ ((qr.metadatas.getD i ⟨none, none⟩).chunkId = none →
        ((buildChunks qr).getD i defaultChunk).chunkId = "Unknown")
    ∧ (qr.distances = none → ((buildChunks qr).getD i defaultChunk).distance = none) := by
  have hsome : (buildChunks qr)[i]?
      = some ⟨qr.documents.getD i "",
         ((qr.metadatas.getD i ⟨none, none⟩).source).getD "Unknown",
         ((qr.metadatas.getD i ⟨none, none⟩).chunkId).getD "Unknown",
         qr.distances.bind (fun ds => ds.get? i), 0⟩ := by
    simp [buildChunks, List.getElem?_range h]
  have hget : (buildChunks qr).getD i defaultChunk
      = ⟨qr.documents.getD i "",
         ((qr.metadatas.getD i ⟨none, none⟩).source).getD "Unknown",
         ((qr.metadatas.getD i ⟨none, none⟩).chunkId).getD "Unknown",
         qr.distances.bind (fun ds => ds.get? i), 0⟩ := by
    rw [List.getD_eq_getElem?_getD, hsome]
    rfl
  refine ⟨by simp [buildChunks], by rw [hget], ?_, ?_, ?_⟩
  · intro hs
    rw [hget]
    show ((qr.metadatas.getD i ⟨none, none⟩).source).getD "Unknown" = "Unknown"
    rw [hs]
    rfl
  · intro hs
    rw [hget]
    show ((qr.metadatas.getD i ⟨none, none⟩).chunkId).getD "Unknown" = "Unknown"
    rw [hs]
    rfl
  · intro hd
    rw [hget]
    show qr.distances.bind (fun ds => ds.get? i) = none
    rw [hd]
    rfl

/-- Witness for C10 at a concrete index answer with empty metadata and no
distances array. -/
theorem build_chunks_defaults_witness :
    0 < qrMissingMeta.documents.length
    ∧ ((buildChunks qrMissingMeta).getD 0 defaultChunk).source = "Unknown"
    ∧ ((buildChunks qrMissingMeta).getD 0 defaultChunk).chunkId = "Unknown"
    ∧ ((buildChunks qrMissingMeta).getD 0 defaultChunk).distance = none := by
  have h : 0 < qrMissingMeta.documents.length := by decide
  have hb := build_chunks_defaults qrMissingMeta 0 h
  exact ⟨h, hb.2.2.1 rfl, hb.2.2.2.1 rfl, hb.2.2.2.2 rfl⟩
